import Mathlib

/-! A shallow embedding of the lox scanner (src/scanner.rs and src/token.rs):
the token data model, the character-level scanner state, the sub-scanners for
string, number and identifier literals, and the top-level scanning loop,
together with theorems about the token sequences they produce. Rust panics
(unwrap of a missing character, unwrap of a failed float parse) are modelled
as explicit failure values, and each while loop takes an explicit fuel
argument that is proven sufficient. -/

namespace Lox

/-- Reserved words of the language, one constructor per variant of the Rust
Keyword enum in token.rs. -/
inductive Keyword where
  | And
  | Class
  | Else
  | False
  | Fun
  | For
  | If
  | Nil
  | Or
  | Print
  | Return
  | Super
  | This
  | True
  | Var
  | While
  deriving DecidableEq, Repr

/-- Token kinds, one constructor per variant of the Rust Kind enum in
token.rs. The f64 payload of Number is modelled as an exact rational: the
scanner only parses plain unsigned decimal spans, whose value is abstracted
here as the exact decimal value. -/
inductive Kind where
  | OpenParenthesis
  | CloseParenthesis
  | OpenCurlyBracket
  | CloseCurlyBracket
  | Comma
  | Dot
  | Minus
  | Plus
  | Semicolon
  | Slash
  | Asterisk
  | Exclamation
  | ExclamationEqual
  | Equal
  | EqualEqual
  | Greater
  | GreaterEqual
  | Less
  | LessEqual
  | Identifier (s : String)
  | String (s : String)
  | Number (value : Rat)
  | Keyword (k : Keyword)
  | EOF
  deriving DecidableEq, Repr

/-- Position record carried by every token (token.rs). The end offset keeps
its Rust field name, current. -/
structure Position where
  start : Nat
  current : Nat
  line : Nat
  deriving DecidableEq, Repr

/-- A classified lexeme together with its source position (token.rs). -/
structure Token where
  kind : Kind
  position : Position
  deriving DecidableEq, Repr

/-- The user-facing error value: a message and the line at which scanning
failed (error.rs, as used by scanner.rs). -/
structure Error where
  message : String
  line : Nat
  deriving DecidableEq, Repr

/-- Failure modes of a scan. The err constructor carries the user-facing
Error value. indexPanic is the Rust panic from unwrapping the missing
character in get_character_at_position, reachable through get_next_char
because is_valid_position accepts an offset equal to the source length.
parsePanic is the Rust panic from unwrapping a failed float parse in
scan_number. outOfFuel is an artifact of the fuel embedding of the while
loops and is proven unreachable. -/
inductive ScanFail where
  | err (e : Error)
  | indexPanic
  | parsePanic
  | outOfFuel
  deriving DecidableEq, Repr

/-- Decidable equality for scan results, used to evaluate the scanner on
concrete inputs inside proofs. -/
instance exceptDecEq {ε α : Type} [DecidableEq ε] [DecidableEq α] : DecidableEq (Except ε α) := fun
  | .error e, .error f =>
    if h : e = f then .isTrue (by rw [h]) else .isFalse (by intro hh; cases hh; exact h rfl)
  | .error _, .ok _ => .isFalse (by intro h; cases h)
  | .ok _, .error _ => .isFalse (by intro h; cases h)
  | .ok a, .ok b =>
    if h : a = b then .isTrue (by rw [h]) else .isFalse (by intro hh; cases hh; exact h rfl)

/-- Decimal-digit test on one character, the Rust range pattern 0..=9. -/
def isDigitChar (c : Char) : Bool :=
  decide ('0' ≤ c ∧ c ≤ '9')

/-- Model of the free function is_numeric in scanner.rs. -/
def is_numeric : Option Char → Bool
  | some c => isDigitChar c
  | none => false

/-- Letter-or-underscore test, the Rust range pattern a..=z, A..=Z, underscore. -/
def isAlphaChar (c : Char) : Bool :=
  decide (('a' ≤ c ∧ c ≤ 'z') ∨ ('A' ≤ c ∧ c ≤ 'Z') ∨ c = '_')

/-- Model of the free function is_alpha in scanner.rs. -/
def is_alpha : Option Char → Bool
  | some c => isAlphaChar c
  | none => false

/-- Model of the free function is_alphanumeric in scanner.rs. -/
def is_alphanumeric (character : Option Char) : Bool :=
  is_numeric character || is_alpha character

/-- Alphanumeric test on one character, matching is_alphanumeric on some. -/
def isAlnumChar (c : Char) : Bool :=
  isDigitChar c || isAlphaChar c

/-- Guard character class of the string loop: anything but a double quote. -/
def notQuote (c : Char) : Bool :=
  !decide (c = '"')

/-- Guard character class of the comment loop: anything but a newline. -/
def notNewline (c : Char) : Bool :=
  !decide (c = '\n')

/-- Numeric value of a digit string, most significant digit first. -/
def digitsToNat (cs : List Char) : Nat :=
  cs.foldl (fun a c => 10 * a + (c.toNat - '0'.toNat)) 0

/-- Model of Rust f64 from_str restricted to the unsigned decimal shapes the
scanner can build: one or more digits, optionally a dot and further digits
(a bare trailing dot is accepted, as in Rust). The parsed value is the exact
decimal rational. Decimal shapes outside this fragment (signs, exponents,
infinities) never reach the parse site and are mapped to none. -/
def parse_f64 (cs : List Char) : Option Rat :=
  let intPart := cs.takeWhile isDigitChar
  let rest := cs.dropWhile isDigitChar
  if intPart = [] then none
  else
    match rest with
    | [] => some (mkRat (digitsToNat intPart) 1)
    | '.' :: frac =>
      if frac.all isDigitChar then
        some (mkRat (digitsToNat intPart * 10 ^ frac.length + digitsToNat frac) (10 ^ frac.length))
      else none
    | _ => none

/-- Model of the FromStr implementation for Keyword in token.rs. -/
def keyword_from_str (string : String) : Option Keyword :=
  if string = "and" then some .And
  else if string = "class" then some .Class
  else if string = "else" then some .Else
  else if string = "false" then some .False
  else if string = "fun" then some .Fun
  else if string = "for" then some .For
  else if string = "if" then some .If
  else if string = "nil" then some .Nil
  else if string = "or" then some .Or
  else if string = "print" then some .Print
  else if string = "return" then some .Return
  else if string = "super" then some .Super
  else if string = "this" then some .This
  else if string = "true" then some .True
  else if string = "var" then some .Var
  else if string = "while" then some .While
  else none

/-- Rust slice v[a..b] as a list: the characters at offsets a up to b-1. The
Rust slice panics when a exceeds b or b exceeds the length; every use below
is proven in bounds, where the model agrees with the Rust slice. -/
def slice (cs : List Char) (a b : Nat) : List Char :=
  (cs.drop a).take (b - a)

/-- The scanner state (scanner.rs): the source as a character sequence, the
cursor, the start offset of the lexeme being recognized, and the 1-based
line counter. -/
structure Scanner where
  source : List Char
  current_position : Nat
  current_start : Nat
  current_line : Nat
  deriving DecidableEq, Repr

/-- Scanner construction (Scanner::new): the source string as its character
sequence, cursor and start at zero, line counter at one. -/
def Scanner.new (source : String) : Scanner :=
  { source := source.data, current_position := 0, current_start := 0, current_line := 1 }

/-- Model of Scanner::advance. -/
def Scanner.advance (s : Scanner) : Scanner :=
  { s with current_position := s.current_position + 1 }

/-- Model of Scanner::advance_line. -/
def Scanner.advance_line (s : Scanner) : Scanner :=
  { s with current_line := s.current_line + 1 }

/-- Model of Scanner::mark_start. -/
def Scanner.mark_start (s : Scanner) : Scanner :=
  { s with current_start := s.current_position }

/-- Model of Scanner::finished. -/
def Scanner.finished (s : Scanner) : Bool :=
  decide (s.source.length ≤ s.current_position)

/-- Model of Scanner::is_valid_position. Note the non-strict bound: the
offset equal to the source length is accepted, which is what makes the
unwrap in get_character_at_position reachable through get_next_char. -/
def Scanner.is_valid_position (s : Scanner) (position : Nat) : Bool :=
  decide (position ≤ s.source.length)

/-- Model of Scanner::get_character_at_position. The Rust function unwraps
the lookup and panics when the offset is out of range; the model returns
none there and the call sites surface the panic. -/
def Scanner.get_character_at_position (s : Scanner) (position : Nat) : Option Char :=
  s.source[position]?

/-- Model of Scanner::get_current_char. In the unfinished branch the cursor
is in range, so the Rust unwrap inside get_character_at_position cannot
fail and the model returns the looked-up character directly. -/
def Scanner.get_current_char (s : Scanner) : Option Char :=
  match s.finished with
  | true => none
  | false => s.source[s.current_position]?

/-- Model of Scanner::get_next_char. When the checked offset equals the
source length, is_valid_position accepts it but the unwrap inside
get_character_at_position panics; that panic is the indexPanic value. -/
def Scanner.get_next_char (s : Scanner) : Except ScanFail (Option Char) :=
  match s.is_valid_position (s.current_position + 1) with
  | false => .ok none
  | true =>
    match s.source[s.current_position + 1]? with
    | some c => .ok (some c)
    | none => .error .indexPanic

/-- Model of Scanner::build_token: the kind plus the current start offset,
cursor and line. -/
def Scanner.build_token (s : Scanner) (kind : Kind) : Token :=
  { kind := kind
    position := { start := s.current_start, current := s.current_position, line := s.current_line } }

/-- Model of Scanner::build_error. -/
def Scanner.build_error (s : Scanner) (message : String) : Error :=
  { message := message, line := s.current_line }

/-- Fuel that bounds every scanning loop: the number of unread characters. -/
def Scanner.fuel (s : Scanner) : Nat :=
  s.source.length - s.current_position

/-- The line-comment loop inside scan_token: discard characters until a
newline or the end of input. -/
def scan_comment_loop : Nat → Scanner → Except ScanFail Scanner
  | fuel, s =>
    if s.get_current_char ≠ some '\n' ∧ s.finished = false then
      match fuel with
      | 0 => .error .outOfFuel
      | f + 1 => scan_comment_loop f s.advance
    else .ok s

/-- The loop inside scan_string: walk to the closing quote or the end of
input, bumping the line counter at each newline. -/
def scan_string_loop : Nat → Scanner → Except ScanFail Scanner
  | fuel, s =>
    if s.get_current_char ≠ some '"' ∧ s.finished = false then
      match fuel with
      | 0 => .error .outOfFuel
      | f + 1 =>
        let s1 := if s.get_current_char = some '\n' then s.advance_line else s
        scan_string_loop f s1.advance
    else .ok s

/-- The digit-consuming loop inside scan_number. -/
def scan_number_loop : Nat → Scanner → Except ScanFail Scanner
  | fuel, s =>
    if is_numeric s.get_current_char then
      match fuel with
      | 0 => .error .outOfFuel
      | f + 1 => scan_number_loop f s.advance
    else .ok s

/-- The character-consuming loop inside scan_identifier. -/
def scan_identifier_loop : Nat → Scanner → Except ScanFail Scanner
  | fuel, s =>
    if is_alphanumeric s.get_current_char then
      match fuel with
      | 0 => .error .outOfFuel
      | f + 1 => scan_identifier_loop f s.advance
    else .ok s

/-- Model of Scanner::scan_string after the opening quote was consumed. -/
def Scanner.scan_string (s : Scanner) : Except ScanFail (Option Token × Scanner) :=
  match scan_string_loop s.fuel s with
  | .error f => .error f
  | .ok s1 =>
    if s1.finished then
      .error (.err (s1.build_error ("EOF while scanning string literal")))
    else
      let s2 := s1.advance
      let string := slice s2.source (s2.current_start + 1) (s2.current_position - 1)
      .ok (some (s2.build_token (.String (String.mk string))), s2)

/-- The tail of Scanner::scan_number: collect the span, parse it, unwrap.
A failed parse is the Rust unwrap panic, surfaced as parsePanic. -/
def Scanner.finish_number (s : Scanner) : Except ScanFail (Option Token × Scanner) :=
  match parse_f64 (slice s.source s.current_start s.current_position) with
  | some value => .ok (some (s.build_token (.Number value)), s)
  | none => .error .parsePanic

/-- Model of Scanner::scan_number after the first digit was consumed. The
fraction guard first compares the current character with a dot and then,
short-circuit, evaluates get_next_char, which can panic. -/
def Scanner.scan_number (s : Scanner) : Except ScanFail (Option Token × Scanner) :=
  match scan_number_loop s.fuel s with
  | .error f => .error f
  | .ok s1 =>
    if s1.get_current_char = some '.' then
      match s1.get_next_char with
      | .error f => .error f
      | .ok next =>
        if is_numeric next then
          let s2 := s1.advance.advance
          match scan_number_loop s2.fuel s2 with
          | .error f => .error f
          | .ok s3 => s3.finish_number
        else s1.finish_number
    else s1.finish_number

/-- Model of Scanner::scan_identifier after the first character was
consumed: take the maximal alphanumeric run and classify the span against
the keyword table. -/
def Scanner.scan_identifier (s : Scanner) : Except ScanFail (Option Token × Scanner) :=
  match scan_identifier_loop s.fuel s with
  | .error f => .error f
  | .ok s1 =>
    let string := String.mk (slice s1.source s1.current_start s1.current_position)
    match keyword_from_str string with
    | some keyword => .ok (some (s1.build_token (.Keyword keyword)), s1)
    | none => .ok (some (s1.build_token (.Identifier string)), s1)

/-- Model of Scanner::scan_token: consume one character and dispatch. The
ordered Rust match arms with their guards become a conditional chain. -/
def Scanner.scan_token (s : Scanner) : Except ScanFail (Option Token × Scanner) :=
  match s.get_current_char with
  | none => .error (.err ((s.advance).build_error ("Invalid syntax.")))
  | some character =>
    let s1 := s.advance
    if character = '(' then .ok (some (s1.build_token .OpenParenthesis), s1)
    else if character = ')' then .ok (some (s1.build_token .CloseParenthesis), s1)
    else if character = '{' then .ok (some (s1.build_token .OpenCurlyBracket), s1)
    else if character = '}' then .ok (some (s1.build_token .CloseCurlyBracket), s1)
    else if character = ',' then .ok (some (s1.build_token .Comma), s1)
    else if character = '.' then .ok (some (s1.build_token .Dot), s1)
    else if character = '-' then .ok (some (s1.build_token .Minus), s1)
    else if character = '+' then .ok (some (s1.build_token .Plus), s1)
    else if character = ';' then .ok (some (s1.build_token .Semicolon), s1)
    else if character = '*' then .ok (some (s1.build_token .Asterisk), s1)
    else if character = '!' then
      match s1.get_next_char with
      | .error f => .error f
      | .ok next =>
        if next = some '=' then
          let s2 := s1.advance
          .ok (some (s2.build_token .ExclamationEqual), s2)
        else .ok (some (s1.build_token .Exclamation), s1)
    else if character = '>' then
      if s1.get_current_char = some '=' then
        let s2 := s1.advance
        .ok (some (s2.build_token .GreaterEqual), s2)
      else .ok (some (s1.build_token .Greater), s1)
    else if character = '<' then
      if s1.get_current_char = some '=' then
        let s2 := s1.advance
        .ok (some (s2.build_token .LessEqual), s2)
      else .ok (some (s1.build_token .Less), s1)
    else if character = '=' then
      if s1.get_current_char = some '=' then
        let s2 := s1.advance
        .ok (some (s2.build_token .EqualEqual), s2)
      else .ok (some (s1.build_token .Equal), s1)
    else if character = '/' then
      if s1.get_current_char = some '/' then
        match scan_comment_loop s1.fuel s1 with
        | .error f => .error f
        | .ok s2 => .ok (none, s2)
      else .ok (some (s1.build_token .Slash), s1)
    else if character = '"' then s1.scan_string
    else if isDigitChar character then s1.scan_number
    else if isAlphaChar character then s1.scan_identifier
    else if character = ' ' ∨ character = '\r' ∨ character = '\t' then .ok (none, s1)
    else if character = '\n' then .ok (none, s1.advance_line)
    else .error (.err (s1.build_error ("Invalid syntax.")))

/-- The scan_tokens loop: while not finished, mark the lexeme start, scan
one token, and collect it when one was produced. -/
def scan_tokens_loop : Nat → Scanner → Except ScanFail (List Token)
  | fuel, s =>
    if s.finished then .ok []
    else
      match fuel with
      | 0 => .error .outOfFuel
      | f + 1 =>
        match (s.mark_start).scan_token with
        | .error e => .error e
        | .ok (some token, s1) =>
          match scan_tokens_loop f s1 with
          | .error e => .error e
          | .ok tokens => .ok (token :: tokens)
        | .ok (none, s1) => scan_tokens_loop f s1

/-- Model of Scanner::scan_tokens. -/
def Scanner.scan_tokens (s : Scanner) : Except ScanFail (List Token) :=
  scan_tokens_loop s.fuel s

/-- Scanning a complete source text, Scanner::new followed by scan_tokens. -/
def lox_scan (source : String) : Except ScanFail (List Token) :=
  (Scanner.new source).scan_tokens

/-! Basic facts about the scanner state transitions. -/

@[simp] theorem advance_source (s : Scanner) : s.advance.source = s.source := rfl

@[simp] theorem advance_start (s : Scanner) : s.advance.current_start = s.current_start := rfl

@[simp] theorem advance_line_field (s : Scanner) : s.advance.current_line = s.current_line := rfl

@[simp] theorem advance_pos (s : Scanner) : s.advance.current_position = s.current_position + 1 := rfl

@[simp] theorem advanceLine_source (s : Scanner) : s.advance_line.source = s.source := rfl

@[simp] theorem advanceLine_start (s : Scanner) : s.advance_line.current_start = s.current_start := rfl

@[simp] theorem advanceLine_pos (s : Scanner) :
    s.advance_line.current_position = s.current_position := rfl

@[simp] theorem advanceLine_line (s : Scanner) :
    s.advance_line.current_line = s.current_line + 1 := rfl

@[simp] theorem markStart_source (s : Scanner) : s.mark_start.source = s.source := rfl

@[simp] theorem markStart_start (s : Scanner) :
    s.mark_start.current_start = s.current_position := rfl

@[simp] theorem markStart_pos (s : Scanner) :
    s.mark_start.current_position = s.current_position := rfl

@[simp] theorem markStart_line (s : Scanner) : s.mark_start.current_line = s.current_line := rfl

theorem finished_false_iff (s : Scanner) :
    s.finished = false ↔ s.current_position < s.source.length := by
  simp [Scanner.finished]

theorem finished_true_iff (s : Scanner) :
    s.finished = true ↔ s.source.length ≤ s.current_position := by
  simp [Scanner.finished]

theorem get_current_char_some_iff (s : Scanner) (c : Char) :
    s.get_current_char = some c ↔ s.source[s.current_position]? = some c := by
  unfold Scanner.get_current_char
  rcases h : s.finished with _ | _
  · simp
  · rw [finished_true_iff] at h
    simp [List.getElem?_eq_none h]

theorem get_current_char_of_lt (s : Scanner) (h : s.current_position < s.source.length) :
    s.get_current_char = s.source[s.current_position]? := by
  unfold Scanner.get_current_char
  rcases hf : s.finished with _ | _
  · simp
  · rw [finished_true_iff] at hf
    omega

theorem get_current_char_none_iff (s : Scanner) :
    s.get_current_char = none ↔ s.source.length ≤ s.current_position := by
  unfold Scanner.get_current_char
  rcases h : s.finished with _ | _
  · rw [finished_false_iff] at h
    rw [List.getElem?_eq_getElem h]
    simp
    omega
  · rw [finished_true_iff] at h
    simp [h]

theorem get_next_char_eq (s : Scanner) :
    s.get_next_char =
      if s.current_position + 1 < s.source.length then .ok (s.source[s.current_position + 1]?)
      else if s.current_position + 1 = s.source.length then .error .indexPanic
      else .ok none := by
  unfold Scanner.get_next_char Scanner.is_valid_position
  rcases Nat.lt_trichotomy (s.current_position + 1) s.source.length with h | h | h
  · rw [List.getElem?_eq_getElem h]
    simp [Nat.le_of_lt h, h]
  · simp [h, List.getElem?_eq_none (Nat.le_of_eq h.symm)]
  · have h1 : ¬ (s.current_position + 1 ≤ s.source.length) := by omega
    have h2 : ¬ (s.current_position + 1 < s.source.length) := by omega
    have h3 : s.current_position + 1 ≠ s.source.length := by omega
    simp [h1, h2, h3]

/-! Facts about slices, takeWhile runs and newline counts. -/

theorem slice_nil (cs : List Char) (a : Nat) : slice cs a a = [] := by
  simp [slice]

theorem slice_cons (cs : List Char) (a b : Nat) (c : Char)
    (h : cs[a]? = some c) (hab : a < b) :
    slice cs a b = c :: slice cs (a + 1) b := by
  unfold slice
  obtain ⟨hlt, he⟩ := List.getElem?_eq_some.mp h
  rw [List.drop_eq_getElem_cons hlt, he]
  have hb : b - a = (b - (a + 1)) + 1 := by omega
  rw [hb, List.take_succ_cons]

theorem slice_one (cs : List Char) (a : Nat) (c : Char) (h : cs[a]? = some c) :
    slice cs a (a + 1) = [c] := by
  rw [slice_cons cs a (a + 1) c h (by omega), slice_nil]

theorem slice_append (cs : List Char) (a b c : Nat) (h1 : a ≤ b) (h2 : b ≤ c) :
    slice cs a b ++ slice cs b c = slice cs a c := by
  unfold slice
  have hc : c - a = (b - a) + (c - b) := by omega
  rw [hc, List.take_add, List.drop_drop]
  have hb : a + (b - a) = b := by omega
  rw [hb]

theorem take_eq_take_append_slice (cs : List Char) (a b : Nat) (h : a ≤ b) :
    cs.take b = cs.take a ++ slice cs a b := by
  unfold slice
  have hb : b = a + (b - a) := by omega
  conv_lhs => rw [hb]
  rw [List.take_add]

theorem drop_eq_slice_append_drop (cs : List Char) (a b : Nat) (h : a ≤ b) :
    cs.drop a = slice cs a b ++ cs.drop b := by
  unfold slice
  have hb : b = a + (b - a) := by omega
  conv_lhs => rw [← List.take_append_drop (b - a) (cs.drop a)]
  rw [List.drop_drop]
  rw [← hb]

theorem takeWhile_len_le {α : Type} (p : α → Bool) (l : List α) :
    (l.takeWhile p).length ≤ l.length := by
  induction l with
  | nil => simp
  | cons a t ih =>
    rw [List.takeWhile_cons]
    rcases h : p a with _ | _
    · simp
    · simpa using ih

theorem take_takeWhile_length {α : Type} (p : α → Bool) (l : List α) :
    l.take (l.takeWhile p).length = l.takeWhile p := by
  induction l with
  | nil => simp
  | cons a t ih =>
    rw [List.takeWhile_cons]
    rcases h : p a with _ | _
    · simp
    · simpa using ih

theorem takeWhile_append_of_all {α : Type} (p : α → Bool) (as bs : List α)
    (ha : ∀ a ∈ as, p a = true) (hb : ∀ b bs2, bs = b :: bs2 → p b = false) :
    (as ++ bs).takeWhile p = as ∧ (as ++ bs).dropWhile p = bs := by
  induction as with
  | nil =>
    rcases bs with _ | ⟨b, bs2⟩
    · simp
    · have := hb b bs2 rfl
      simp [List.takeWhile_cons, List.dropWhile_cons, this]
  | cons a t ih =>
    have hpa : p a = true := ha a (by simp)
    have ih2 := ih (fun a2 h2 => ha a2 (by simp [h2]))
    simp [List.takeWhile_cons, List.dropWhile_cons, hpa, ih2.1, ih2.2]

theorem count_eq_zero_of_all_ne (c : Char) (l : List Char)
    (h : ∀ x ∈ l, x ≠ c) : l.count c = 0 := by
  rw [List.count_eq_zero]
  intro hc
  exact h c hc rfl

theorem drop_length_takeWhile {α : Type} (p : α → Bool) (l : List α) :
    l.drop (l.takeWhile p).length = l.dropWhile p := by
  induction l with
  | nil => simp
  | cons a t ih =>
    rw [List.takeWhile_cons, List.dropWhile_cons]
    rcases h : p a with _ | _
    · simp
    · simpa using ih

/-- The character run a scanning loop consumes from the cursor onward. -/
def runFrom (p : Char → Bool) (s : Scanner) : List Char :=
  (s.source.drop s.current_position).takeWhile p

theorem runFrom_eq_nil (p : Char → Bool) (s : Scanner)
    (h : ∀ c, s.source[s.current_position]? = some c → p c = false) :
    runFrom p s = [] := by
  unfold runFrom
  rcases Nat.lt_or_ge s.current_position s.source.length with hlt | hge
  · rw [List.drop_eq_getElem_cons hlt, List.takeWhile_cons,
      h _ (List.getElem?_eq_getElem hlt)]
    simp
  · rw [List.drop_eq_nil_of_le hge, List.takeWhile_nil]

theorem runFrom_eq_cons (p : Char → Bool) (s : Scanner) (c : Char)
    (hgc : s.source[s.current_position]? = some c) (hp : p c = true) :
    runFrom p s = c :: runFrom p s.advance := by
  unfold runFrom
  obtain ⟨hlt, he⟩ := List.getElem?_eq_some.mp hgc
  rw [List.drop_eq_getElem_cons hlt, List.takeWhile_cons, he, hp]
  rfl

theorem runFrom_length_le (p : Char → Bool) (s : Scanner)
    (h : s.current_position ≤ s.source.length) :
    s.current_position + (runFrom p s).length ≤ s.source.length := by
  have h1 := takeWhile_len_le p (s.source.drop s.current_position)
  rw [List.length_drop] at h1
  unfold runFrom
  omega

theorem slice_runFrom (p : Char → Bool) (s : Scanner) :
    slice s.source s.current_position (s.current_position + (runFrom p s).length) =
      runFrom p s := by
  unfold slice runFrom
  have h : s.current_position + ((s.source.drop s.current_position).takeWhile p).length -
      s.current_position = ((s.source.drop s.current_position).takeWhile p).length := by omega
  rw [h, take_takeWhile_length]

theorem drop_after_runFrom (p : Char → Bool) (s : Scanner) :
    s.source.drop (s.current_position + (runFrom p s).length) =
      (s.source.drop s.current_position).dropWhile p := by
  rw [← drop_length_takeWhile p (s.source.drop s.current_position), List.drop_drop]
  rfl

/-! Exact descriptions of the four scanning loops: each consumes precisely
the maximal run of its guard characters, with enough fuel. -/

theorem scan_number_loop_spec (fuel : Nat) : ∀ (s : Scanner),
    s.source.length - s.current_position ≤ fuel →
    scan_number_loop fuel s = .ok
      ⟨s.source, s.current_position + (runFrom isDigitChar s).length,
        s.current_start, s.current_line⟩ := by
  induction fuel with
  | zero =>
    intro s h
    have hlen : s.source.length ≤ s.current_position := by omega
    have hnil : runFrom isDigitChar s = [] := by
      apply runFrom_eq_nil
      intro c hc
      rw [List.getElem?_eq_none hlen] at hc
      cases hc
    have hcur : s.get_current_char = none := (get_current_char_none_iff s).mpr hlen
    rw [scan_number_loop, hcur]
    simp [is_numeric, hnil]
  | succ f ih =>
    intro s h
    rcases hc : is_numeric s.get_current_char with _ | _
    · have hnil : runFrom isDigitChar s = [] := by
        apply runFrom_eq_nil
        intro c hc2
        rw [(get_current_char_some_iff s c).mpr hc2] at hc
        exact hc
      rw [scan_number_loop, hc]
      simp [hnil]
    · obtain ⟨c, hcc⟩ : ∃ c, s.get_current_char = some c := by
        cases hgc : s.get_current_char with
        | none => rw [hgc] at hc; cases hc
        | some c => exact ⟨c, rfl⟩
      have hgc := (get_current_char_some_iff s c).mp hcc
      have hdig : isDigitChar c = true := by rw [hcc] at hc; exact hc
      have hcons := runFrom_eq_cons isDigitChar s c hgc hdig
      have ha := ih s.advance (by simp; omega)
      rw [scan_number_loop, hc, ha, hcons]
      simp [Scanner.mk.injEq]
      omega

theorem scan_identifier_loop_spec (fuel : Nat) : ∀ (s : Scanner),
    s.source.length - s.current_position ≤ fuel →
    scan_identifier_loop fuel s = .ok
      ⟨s.source, s.current_position + (runFrom isAlnumChar s).length,
        s.current_start, s.current_line⟩ := by
  induction fuel with
  | zero =>
    intro s h
    have hlen : s.source.length ≤ s.current_position := by omega
    have hnil : runFrom isAlnumChar s = [] := by
      apply runFrom_eq_nil
      intro c hc
      rw [List.getElem?_eq_none hlen] at hc
      cases hc
    have hcur : s.get_current_char = none := (get_current_char_none_iff s).mpr hlen
    rw [scan_identifier_loop, hcur]
    simp [is_alphanumeric, is_numeric, is_alpha, hnil]
  | succ f ih =>
    intro s h
    rcases hc : is_alphanumeric s.get_current_char with _ | _
    · have hnil : runFrom isAlnumChar s = [] := by
        apply runFrom_eq_nil
        intro c hc2
        rw [(get_current_char_some_iff s c).mpr hc2] at hc
        exact hc
      rw [scan_identifier_loop, hc]
      simp [hnil]
    · obtain ⟨c, hcc⟩ : ∃ c, s.get_current_char = some c := by
        cases hgc : s.get_current_char with
        | none => rw [hgc] at hc; cases hc
        | some c => exact ⟨c, rfl⟩
      have hgc := (get_current_char_some_iff s c).mp hcc
      have halnum : isAlnumChar c = true := by rw [hcc] at hc; exact hc
      have hcons := runFrom_eq_cons isAlnumChar s c hgc halnum
      have ha := ih s.advance (by simp; omega)
      rw [scan_identifier_loop, hc, ha, hcons]
      simp [Scanner.mk.injEq]
      omega

theorem scan_comment_loop_spec (fuel : Nat) : ∀ (s : Scanner),
    s.source.length - s.current_position ≤ fuel →
    scan_comment_loop fuel s = .ok
      ⟨s.source, s.current_position + (runFrom notNewline s).length,
        s.current_start, s.current_line⟩ := by
  induction fuel with
  | zero =>
    intro s h
    have hlen : s.source.length ≤ s.current_position := by omega
    have hnil : runFrom notNewline s = [] := by
      apply runFrom_eq_nil
      intro c hc
      rw [List.getElem?_eq_none hlen] at hc
      cases hc
    have hfin : s.finished = true := (finished_true_iff s).mpr hlen
    rw [scan_comment_loop]
    simp [hfin, hnil]
  | succ f ih =>
    intro s h
    by_cases hcond : s.get_current_char ≠ some '\n' ∧ s.finished = false
    · have hlt : s.current_position < s.source.length := (finished_false_iff s).mp hcond.2
      have hgc : s.source[s.current_position]? = some s.source[s.current_position] :=
        List.getElem?_eq_getElem hlt
      have hne : s.source[s.current_position] ≠ '\n' := by
        intro hx
        exact hcond.1 ((get_current_char_some_iff s '\n').mpr (by rw [hgc, hx]))
      have hcons := runFrom_eq_cons notNewline s _ hgc (by simp [notNewline, hne])
      have ha := ih s.advance (by simp; omega)
      rw [scan_comment_loop]
      rw [if_pos hcond, ha, hcons]
      simp [Scanner.mk.injEq]
      omega
    · have hnil : runFrom notNewline s = [] := by
        apply runFrom_eq_nil
        intro c hc
        by_cases hn : c = '\n'
        · simp [notNewline, hn]
        · exfalso
          rcases Decidable.not_and_iff_or_not.mp hcond with h1 | h2
          · have h1n : s.get_current_char = some '\n' := by
              by_contra hx
              exact h1 hx
            have := ((get_current_char_some_iff s c).mpr hc).symm.trans h1n
            exact hn (Option.some_inj.mp this)
          · have hlt := (List.getElem?_eq_some.mp hc).1
            exact h2 ((finished_false_iff s).mpr hlt)
      rw [scan_comment_loop]
      rw [if_neg hcond]
      simp [hnil]

theorem scan_string_loop_spec (fuel : Nat) : ∀ (s : Scanner),
    s.source.length - s.current_position ≤ fuel →
    scan_string_loop fuel s = .ok
      ⟨s.source, s.current_position + (runFrom notQuote s).length,
        s.current_start, s.current_line + (runFrom notQuote s).count '\n'⟩ := by
  induction fuel with
  | zero =>
    intro s h
    have hlen : s.source.length ≤ s.current_position := by omega
    have hnil : runFrom notQuote s = [] := by
      apply runFrom_eq_nil
      intro c hc
      rw [List.getElem?_eq_none hlen] at hc
      cases hc
    have hfin : s.finished = true := (finished_true_iff s).mpr hlen
    rw [scan_string_loop]
    simp [hfin, hnil]
  | succ f ih =>
    intro s h
    by_cases hcond : s.get_current_char ≠ some '"' ∧ s.finished = false
    · have hlt : s.current_position < s.source.length := (finished_false_iff s).mp hcond.2
      have hgc : s.source[s.current_position]? = some s.source[s.current_position] :=
        List.getElem?_eq_getElem hlt
      have hcc : s.get_current_char = some s.source[s.current_position] :=
        (get_current_char_some_iff s _).mpr hgc
      have hne : s.source[s.current_position] ≠ '"' := by
        intro hx
        exact hcond.1 (by rw [hcc, hx])
      have hcons := runFrom_eq_cons notQuote s _ hgc (by simp [notQuote, hne])
      rw [scan_string_loop]
      rw [if_pos hcond]
      by_cases hnl : s.get_current_char = some '\n'
      · have hcn : s.source[s.current_position] = '\n' := by
          have := hcc.symm.trans hnl
          exact (Option.some.injEq _ _).mp this
        have ha := ih s.advance_line.advance (by simp; omega)
        rw [if_pos hnl, ha]
        have hrun : runFrom notQuote s.advance_line.advance = runFrom notQuote s.advance := rfl
        rw [hrun, hcons]
        simp [Scanner.mk.injEq, List.count_cons, hcn]
        omega
      · have hcn : s.source[s.current_position] ≠ '\n' := by
          intro hx
          exact hnl (by rw [hcc, hx])
        have ha := ih s.advance (by simp; omega)
        rw [if_neg hnl, ha, hcons]
        simp [Scanner.mk.injEq, List.count_cons, hcn]
        omega
    · have hnil : runFrom notQuote s = [] := by
        apply runFrom_eq_nil
        intro c hc
        by_cases hq : c = '"'
        · simp [notQuote, hq]
        · exfalso
          rcases Decidable.not_and_iff_or_not.mp hcond with h1 | h2
          · have h1q : s.get_current_char = some '"' := by
              by_contra hx
              exact h1 hx
            have := ((get_current_char_some_iff s c).mpr hc).symm.trans h1q
            exact hq (Option.some_inj.mp this)
          · have hlt := (List.getElem?_eq_some.mp hc).1
            exact h2 ((finished_false_iff s).mpr hlt)
      rw [scan_string_loop]
      rw [if_neg hcond]
      simp [hnil]

/-! The decimal parser succeeds on every span the number sub-scanner can
build. -/

theorem parse_f64_digits (cs : List Char) (h : cs ≠ [])
    (hall : ∀ c ∈ cs, isDigitChar c = true) :
    parse_f64 cs = some (mkRat (digitsToNat cs) 1) := by
  have htw : cs.takeWhile isDigitChar = cs := List.takeWhile_eq_self_iff.mpr hall
  have hdw : cs.dropWhile isDigitChar = [] := List.dropWhile_eq_nil_iff.mpr hall
  simp only [parse_f64, htw, hdw]
  simp [h]

theorem parse_f64_digits_dot_digits (as bs : List Char) (ha0 : as ≠ [])
    (ha : ∀ c ∈ as, isDigitChar c = true) (hb : ∀ c ∈ bs, isDigitChar c = true) :
    parse_f64 (as ++ '.' :: bs) =
      some (mkRat (digitsToNat as * 10 ^ bs.length + digitsToNat bs) (10 ^ bs.length)) := by
  obtain ⟨htw, hdw⟩ := takeWhile_append_of_all isDigitChar as ('.' :: bs) ha
    (fun b bs2 hb2 => by
      rw [List.cons.injEq] at hb2
      rw [← hb2.1]
      rfl)
  simp only [parse_f64, htw, hdw]
  simp [ha0, List.all_eq_true.mpr hb]

/-! Full behavior of the string sub-scanner: success exactly when a closing
quote exists, with verbatim contents; the EOF error otherwise. -/

theorem dropWhile_head_false {α : Type} (p : α → Bool) (l : List α) (a : α) (t : List α)
    (h : l.dropWhile p = a :: t) : p a = false := by
  induction l with
  | nil => cases h
  | cons b l2 ih =>
    rw [List.dropWhile_cons] at h
    rcases hp : p b with _ | _
    · rw [hp] at h
      simp only [Bool.false_eq_true, if_false, List.cons.injEq] at h
      rw [← h.1]
      exact hp
    · rw [hp] at h
      simp only [if_true] at h
      exact ih h

theorem scan_string_spec_found (s : Scanner)
    (h : '"' ∈ s.source.drop s.current_position) :
    ∃ q, q = s.current_position + (runFrom notQuote s).length ∧
      s.scan_string = .ok (some
        ⟨.String (String.mk (slice s.source (s.current_start + 1) q)),
          ⟨s.current_start, q + 1, s.current_line + (runFrom notQuote s).count '\n'⟩⟩,
        ⟨s.source, q + 1, s.current_start,
          s.current_line + (runFrom notQuote s).count '\n'⟩) ∧
      s.source[q]? = some '"' ∧
      slice s.source s.current_position q = runFrom notQuote s ∧
      s.current_position ≤ q ∧ q < s.source.length := by
  refine ⟨s.current_position + (runFrom notQuote s).length, rfl, ?_⟩
  have hdw : (s.source.drop s.current_position).dropWhile notQuote ≠ [] := by
    intro hx
    have := List.dropWhile_eq_nil_iff.mp hx '"' h
    simp [notQuote] at this
  have hdropq := drop_after_runFrom notQuote s
  obtain ⟨a, t, hl⟩ : ∃ a t, (s.source.drop s.current_position).dropWhile notQuote = a :: t := by
    rcases hc : (s.source.drop s.current_position).dropWhile notQuote with _ | ⟨a, t⟩
    · exact absurd hc hdw
    · exact ⟨a, t, rfl⟩
  have ha : a = '"' := by
    have := dropWhile_head_false notQuote (s.source.drop s.current_position) a t hl
    simpa [notQuote] using this
  have hq2 : s.current_position + (runFrom notQuote s).length < s.source.length := by
    have : (s.source.drop (s.current_position + (runFrom notQuote s).length)).length =
        (a :: t).length := by rw [hdropq, hl]
    rw [List.length_drop] at this
    simp at this
    omega
  have hquote : s.source[s.current_position + (runFrom notQuote s).length]? = some '"' := by
    have h0 : (s.source.drop (s.current_position + (runFrom notQuote s).length))[0]? =
        some a := by
      rw [hdropq, hl]
      simp
    rw [List.getElem?_drop] at h0
    rw [← ha]
    simpa using h0
  have hfin : (Scanner.finished
      ⟨s.source, s.current_position + (runFrom notQuote s).length, s.current_start,
        s.current_line + (runFrom notQuote s).count '\n'⟩) = false := by
    rw [finished_false_iff]
    exact hq2
  simp only [Scanner.scan_string, scan_string_loop_spec s.fuel s (le_refl s.fuel), hfin,
    Bool.false_eq_true, if_false]
  refine ⟨?_, hquote, slice_runFrom notQuote s, by omega, hq2⟩
  simp [Scanner.advance, Scanner.build_token]

theorem scan_string_spec_not_found (s : Scanner)
    (h : '"' ∉ s.source.drop s.current_position) :
    s.scan_string = .error (.err ⟨"EOF while scanning string literal",
      s.current_line + (s.source.drop s.current_position).count '\n'⟩) := by
  have hall : ∀ c ∈ s.source.drop s.current_position, notQuote c = true := by
    intro c hc
    have hne : c ≠ '"' := fun hx => h (hx ▸ hc)
    simp [notQuote, hne]
  have hrun : runFrom notQuote s = s.source.drop s.current_position :=
    List.takeWhile_eq_self_iff.mpr hall
  have hfin : (Scanner.finished
      ⟨s.source, s.current_position + (runFrom notQuote s).length, s.current_start,
        s.current_line + (runFrom notQuote s).count '\n'⟩) = true := by
    rw [finished_true_iff]
    show s.source.length ≤ s.current_position + (runFrom notQuote s).length
    rw [hrun, List.length_drop]
    omega
  simp only [Scanner.scan_string, scan_string_loop_spec s.fuel s (le_refl s.fuel), hfin,
    if_true]
  rw [hrun]
  rfl

/-! Full behavior of the number and identifier sub-scanners. -/

theorem finish_number_eq (u : Scanner) (v : Rat)
    (h : parse_f64 (slice u.source u.current_start u.current_position) = some v) :
    u.finish_number = .ok (some ⟨.Number v,
      ⟨u.current_start, u.current_position, u.current_line⟩⟩, u) := by
  simp only [Scanner.finish_number, h]
  rfl

theorem scan_number_spec (s : Scanner) (c0 : Char)
    (hstart : s.current_start + 1 = s.current_position)
    (hc0 : s.source[s.current_start]? = some c0)
    (hdig : isDigitChar c0 = true)
    (hpos : s.current_position ≤ s.source.length) :
    s.scan_number = .error .indexPanic ∨
    ∃ e v, s.scan_number = .ok (some ⟨.Number v,
        ⟨s.current_start, e, s.current_line⟩⟩,
        ⟨s.source, e, s.current_start, s.current_line⟩) ∧
      parse_f64 (slice s.source s.current_start e) = some v ∧
      s.current_position ≤ e ∧ e ≤ s.source.length ∧
      (∀ c ∈ slice s.source s.current_start e, isDigitChar c = true ∨ c = '.') := by
  have hq1 := runFrom_length_le isDigitChar s hpos
  have htw1 : ∀ c ∈ runFrom isDigitChar s, isDigitChar c = true :=
    fun c hc => List.mem_takeWhile_imp hc
  have hall1 : ∀ c ∈ c0 :: runFrom isDigitChar s, isDigitChar c = true := by
    intro c hc
    rcases List.mem_cons.mp hc with hc | hc
    · rw [hc]; exact hdig
    · exact htw1 c hc
  have hspan1 : slice s.source s.current_start
      (s.current_position + (runFrom isDigitChar s).length) =
      c0 :: runFrom isDigitChar s := by
    rw [slice_cons s.source s.current_start _ c0 hc0 (by omega), hstart]
    rw [slice_runFrom isDigitChar s]
  have hparse1 : parse_f64 (slice s.source s.current_start
      (s.current_position + (runFrom isDigitChar s).length)) =
      some (mkRat (digitsToNat (c0 :: runFrom isDigitChar s)) 1) := by
    rw [hspan1]
    exact parse_f64_digits _ (by simp) hall1
  have hfinish1 := finish_number_eq
    ⟨s.source, s.current_position + (runFrom isDigitChar s).length,
      s.current_start, s.current_line⟩
    (mkRat (digitsToNat (c0 :: runFrom isDigitChar s)) 1) hparse1
  have hgoal1 : ∀ c ∈ slice s.source s.current_start
      (s.current_position + (runFrom isDigitChar s).length),
      isDigitChar c = true ∨ c = '.' := by
    rw [hspan1]
    intro c hc
    exact Or.inl (hall1 c hc)
  simp only [Scanner.scan_number, scan_number_loop_spec s.fuel s (le_refl s.fuel)]
  by_cases hdot : (Scanner.get_current_char
      ⟨s.source, s.current_position + (runFrom isDigitChar s).length,
        s.current_start, s.current_line⟩) = some '.'
  · rw [if_pos hdot]
    have hdotq : s.source[s.current_position + (runFrom isDigitChar s).length]? = some '.' :=
      (get_current_char_some_iff _ '.').mp hdot
    have hq1lt : s.current_position + (runFrom isDigitChar s).length < s.source.length :=
      (List.getElem?_eq_some.mp hdotq).1
    rw [get_next_char_eq]
    dsimp only
    rcases Nat.lt_or_ge (s.current_position + (runFrom isDigitChar s).length + 1)
        s.source.length with hnext | hnext
    · rw [if_pos hnext]
      dsimp only
      rcases hd1 : s.source[s.current_position + (runFrom isDigitChar s).length + 1]? with
        _ | d1
      · rw [List.getElem?_eq_getElem hnext] at hd1
        cases hd1
      · rcases hd1dig : isDigitChar d1 with _ | _
        · have hnum : is_numeric (some d1) = false := hd1dig
          rw [hnum]
          simp only [Bool.false_eq_true, if_false]
          rw [hfinish1]
          right
          exact ⟨s.current_position + (runFrom isDigitChar s).length,
            mkRat (digitsToNat (c0 :: runFrom isDigitChar s)) 1, rfl, hparse1,
            by omega, hq1, hgoal1⟩
        · have hnum : is_numeric (some d1) = true := hd1dig
          rw [hnum]
          simp only [if_true]
          have hs2fuel := scan_number_loop_spec
            (Scanner.fuel ⟨s.source,
              s.current_position + (runFrom isDigitChar s).length + 1 + 1,
              s.current_start, s.current_line⟩)
            ⟨s.source, s.current_position + (runFrom isDigitChar s).length + 1 + 1,
              s.current_start, s.current_line⟩
            (le_refl _)
          rw [show (Scanner.advance (Scanner.advance
              ⟨s.source, s.current_position + (runFrom isDigitChar s).length,
                s.current_start, s.current_line⟩)) =
              ⟨s.source, s.current_position + (runFrom isDigitChar s).length + 1 + 1,
                s.current_start, s.current_line⟩ from rfl]
          rw [hs2fuel]
          dsimp only
          have htw2 : ∀ c ∈ runFrom isDigitChar
              ⟨s.source, s.current_position + (runFrom isDigitChar s).length + 1 + 1,
                s.current_start, s.current_line⟩, isDigitChar c = true :=
            fun c hc => List.mem_takeWhile_imp hc
          have hp2le : s.current_position + (runFrom isDigitChar s).length + 1 + 1 ≤
              s.source.length := by omega
          have he2 := runFrom_length_le isDigitChar
            ⟨s.source, s.current_position + (runFrom isDigitChar s).length + 1 + 1,
              s.current_start, s.current_line⟩ hp2le
          dsimp only at he2
          have hspan2 : slice s.source s.current_start
              (s.current_position + (runFrom isDigitChar s).length + 1 + 1 +
                (runFrom isDigitChar
                  ⟨s.source, s.current_position + (runFrom isDigitChar s).length + 1 + 1,
                    s.current_start, s.current_line⟩).length) =
              (c0 :: runFrom isDigitChar s) ++ '.' :: d1 :: runFrom isDigitChar
                ⟨s.source, s.current_position + (runFrom isDigitChar s).length + 1 + 1,
                  s.current_start, s.current_line⟩ := by
            rw [← slice_append s.source s.current_start
              (s.current_position + (runFrom isDigitChar s).length) _ (by omega) (by omega)]
            rw [hspan1]
            rw [slice_cons s.source
              (s.current_position + (runFrom isDigitChar s).length) _ '.' hdotq (by omega)]
            rw [slice_cons s.source
              (s.current_position + (runFrom isDigitChar s).length + 1) _ d1 hd1 (by omega)]
            rw [show slice s.source
              (s.current_position + (runFrom isDigitChar s).length + 1 + 1)
              (s.current_position + (runFrom isDigitChar s).length + 1 + 1 +
                (runFrom isDigitChar
                  ⟨s.source, s.current_position + (runFrom isDigitChar s).length + 1 + 1,
                    s.current_start, s.current_line⟩).length) =
              runFrom isDigitChar
                ⟨s.source, s.current_position + (runFrom isDigitChar s).length + 1 + 1,
                  s.current_start, s.current_line⟩ from slice_runFrom isDigitChar
                    ⟨s.source, s.current_position + (runFrom isDigitChar s).length + 1 + 1,
                      s.current_start, s.current_line⟩]
          have hparse2 : parse_f64 (slice s.source s.current_start
              (s.current_position + (runFrom isDigitChar s).length + 1 + 1 +
                (runFrom isDigitChar
                  ⟨s.source, s.current_position + (runFrom isDigitChar s).length + 1 + 1,
                    s.current_start, s.current_line⟩).length)) =
              some (mkRat (digitsToNat (c0 :: runFrom isDigitChar s) *
                  10 ^ (d1 :: runFrom isDigitChar
                    ⟨s.source, s.current_position + (runFrom isDigitChar s).length + 1 + 1,
                      s.current_start, s.current_line⟩).length +
                  digitsToNat (d1 :: runFrom isDigitChar
                    ⟨s.source, s.current_position + (runFrom isDigitChar s).length + 1 + 1,
                      s.current_start, s.current_line⟩))
                (10 ^ (d1 :: runFrom isDigitChar
                  ⟨s.source, s.current_position + (runFrom isDigitChar s).length + 1 + 1,
                    s.current_start, s.current_line⟩).length)) := by
            rw [hspan2]
            apply parse_f64_digits_dot_digits _ _ (by simp) hall1
            intro c hc
            rcases List.mem_cons.mp hc with hc | hc
            · rw [hc]; exact hd1dig
            · exact htw2 c hc
          rw [finish_number_eq _ _ hparse2]
          right
          refine ⟨_, _, rfl, hparse2, by dsimp only; omega, by dsimp only; omega, ?_⟩
          rw [hspan2]
          intro c hc
          rcases List.mem_append.mp hc with hc | hc
          · exact Or.inl (hall1 c hc)
          · rcases List.mem_cons.mp hc with hc | hc
            · exact Or.inr hc
            · rcases List.mem_cons.mp hc with hc | hc
              · rw [hc]; exact Or.inl hd1dig
              · exact Or.inl (htw2 c hc)
    · rcases Nat.eq_or_lt_of_le hnext with heq | hgt
      · rw [if_neg (by omega), if_pos heq.symm]
        dsimp only
        left
        rfl
      · omega
  · rw [if_neg hdot]
    rw [hfinish1]
    right
    exact ⟨s.current_position + (runFrom isDigitChar s).length,
      mkRat (digitsToNat (c0 :: runFrom isDigitChar s)) 1, rfl, hparse1,
      by omega, hq1, hgoal1⟩

/-- Classification of a scanned identifier span against the keyword table:
an exact keyword spelling yields that keyword, anything else an identifier. -/
def identKind (nm : String) : Kind :=
  match keyword_from_str nm with
  | some k => .Keyword k
  | none => .Identifier nm

theorem scan_identifier_spec (s : Scanner) (c0 : Char)
    (hstart : s.current_start + 1 = s.current_position)
    (hc0 : s.source[s.current_start]? = some c0)
    (halpha : isAlphaChar c0 = true)
    (hpos : s.current_position ≤ s.source.length) :
    ∃ e, e = s.current_position + (runFrom isAlnumChar s).length ∧
      s.scan_identifier = .ok (some
        ⟨identKind (String.mk (slice s.source s.current_start e)),
          ⟨s.current_start, e, s.current_line⟩⟩,
        ⟨s.source, e, s.current_start, s.current_line⟩) ∧
      s.current_position ≤ e ∧ e ≤ s.source.length ∧
      slice s.source s.current_start e = c0 :: runFrom isAlnumChar s ∧
      (∀ c ∈ slice s.source s.current_start e, isAlnumChar c = true) := by
  have he := runFrom_length_le isAlnumChar s hpos
  have hspan : slice s.source s.current_start
      (s.current_position + (runFrom isAlnumChar s).length) =
      c0 :: runFrom isAlnumChar s := by
    rw [slice_cons s.source s.current_start _ c0 hc0 (by omega), hstart]
    rw [slice_runFrom isAlnumChar s]
  have hchars : ∀ c ∈ slice s.source s.current_start
      (s.current_position + (runFrom isAlnumChar s).length), isAlnumChar c = true := by
    rw [hspan]
    intro c hc
    rcases List.mem_cons.mp hc with hc | hc
    · rw [hc]
      simp [isAlnumChar, halpha]
    · exact List.mem_takeWhile_imp hc
  refine ⟨s.current_position + (runFrom isAlnumChar s).length, rfl, ?_, by omega, he,
    hspan, hchars⟩
  simp only [Scanner.scan_identifier, scan_identifier_loop_spec s.fuel s (le_refl s.fuel)]
  rcases hk : keyword_from_str (String.mk (slice s.source s.current_start
      (s.current_position + (runFrom isAlnumChar s).length))) with _ | k
  · simp only [identKind, hk]
    rfl
  · simp only [identKind, hk]
    rfl

/-! Per-token correctness predicates, and the one-step description of
scan_token used to prove the top-level loop facts. -/

/-- The line-counter invariant: the line counter is one more than the number
of newline characters before the cursor. The faulty ExclamationEqual
lookahead can consume a newline without counting it, so this is preserved by
every scan step except that one. -/
def lineInv (s : Scanner) : Prop :=
  s.current_line = 1 + (s.source.take s.current_position).count '\n'

/-- The relation between an emitted token kind and its recorded source span.
For ExclamationEqual the second spanned character is unconstrained (the code
checks the character after the span instead), which is exactly what the
scanner guarantees. -/
def KindGood (src : List Char) (t : Token) : Prop :=
  match t.kind with
  | .OpenParenthesis => slice src t.position.start t.position.current = ['(']
  | .CloseParenthesis => slice src t.position.start t.position.current = [')']
  | .OpenCurlyBracket => slice src t.position.start t.position.current = ['{']
  | .CloseCurlyBracket => slice src t.position.start t.position.current = ['}']
  | .Comma => slice src t.position.start t.position.current = [',']
  | .Dot => slice src t.position.start t.position.current = ['.']
  | .Minus => slice src t.position.start t.position.current = ['-']
  | .Plus => slice src t.position.start t.position.current = ['+']
  | .Semicolon => slice src t.position.start t.position.current = [';']
  | .Asterisk => slice src t.position.start t.position.current = ['*']
  | .Slash => slice src t.position.start t.position.current = ['/']
  | .Exclamation => slice src t.position.start t.position.current = ['!']
  | .ExclamationEqual =>
      (∃ c, slice src t.position.start t.position.current = ['!', c]) ∧
      src[t.position.current]? = some '='
  | .Equal => slice src t.position.start t.position.current = ['=']
  | .EqualEqual => slice src t.position.start t.position.current = ['=', '=']
  | .Greater => slice src t.position.start t.position.current = ['>']
  | .GreaterEqual => slice src t.position.start t.position.current = ['>', '=']
  | .Less => slice src t.position.start t.position.current = ['<']
  | .LessEqual => slice src t.position.start t.position.current = ['<', '=']
  | .Identifier name =>
      name.data = slice src t.position.start t.position.current ∧
      keyword_from_str name = none
  | .String contents =>
      slice src t.position.start t.position.current = '"' :: contents.data ++ ['"']
  | .Number value => parse_f64 (slice src t.position.start t.position.current) = some value
  | .Keyword k =>
      keyword_from_str (String.mk (slice src t.position.start t.position.current)) = some k
  | .EOF => False

/-- Span well-formedness plus the kind and span relation. -/
def SpanGood (src : List Char) (t : Token) : Prop :=
  t.position.start < t.position.current ∧ t.position.current ≤ src.length ∧ KindGood src t

theorem count_take_succ_ne (src : List Char) (p : Nat) (c : Char)
    (hc : src[p]? = some c) (hne : c ≠ '\n') :
    (src.take (p + 1)).count '\n' = (src.take p).count '\n' := by
  rw [List.take_succ, hc]
  simp [List.count_append, List.count_cons, hne]

theorem count_take_succ_nl (src : List Char) (p : Nat)
    (hc : src[p]? = some '\n') :
    (src.take (p + 1)).count '\n' = (src.take p).count '\n' + 1 := by
  rw [List.take_succ, hc]
  simp [List.count_append, List.count_cons]

theorem count_take_of_slice (src : List Char) (a b : Nat) (hab : a ≤ b)
    (h : ∀ c ∈ slice src a b, c ≠ '\n') :
    (src.take b).count '\n' = (src.take a).count '\n' := by
  rw [take_eq_take_append_slice src a b hab, List.count_append,
    count_eq_zero_of_all_ne '\n' _ h]
  omega

theorem count_take_of_slice_count (src : List Char) (a b : Nat) (hab : a ≤ b) :
    (src.take b).count '\n' = (src.take a).count '\n' + (slice src a b).count '\n' := by
  rw [take_eq_take_append_slice src a b hab, List.count_append]

/-- The shared shape of the right disjunct of the scan step description. -/
def StepOk (s : Scanner) (r : Except ScanFail (Option Token × Scanner)) : Prop :=
  ∃ opt s2, r = .ok (opt, s2) ∧
    s2.source = s.source ∧
    s.current_position < s2.current_position ∧
    s2.current_position ≤ s.source.length ∧
    (∀ t, opt = some t → SpanGood s.source t) ∧
    (lineInv s →
      (lineInv s2 ∧ ∀ t, opt = some t →
        t.position.line = 1 + (s.source.take t.position.current).count '\n') ∨
      (∃ t, opt = some t ∧ t.kind = Kind.ExclamationEqual ∧
        slice s.source t.position.start t.position.current ≠ ['!', '=']))

theorem step_ok_single (s : Scanner) (k : Kind) (c : Char)
    (hmark : s.current_start = s.current_position)
    (hlt : s.current_position < s.source.length)
    (hc : s.source[s.current_position]? = some c)
    (hne : c ≠ '\n')
    (hkind : KindGood s.source (s.advance.build_token k)) :
    StepOk s (.ok (some (s.advance.build_token k), s.advance)) := by
  refine ⟨_, _, rfl, rfl, by simp, by simp; omega, ?_, ?_⟩
  · intro t ht
    rw [← Option.some_inj.mp ht]
    refine ⟨?_, ?_, hkind⟩
    · show s.current_start < s.current_position + 1
      omega
    · show s.current_position + 1 ≤ s.source.length
      omega
  · intro hline
    left
    constructor
    · show s.current_line = 1 + (s.source.take (s.current_position + 1)).count '\n'
      rw [count_take_succ_ne s.source s.current_position c hc hne]
      exact hline
    · intro t ht
      rw [← Option.some_inj.mp ht]
      show s.current_line = 1 + (s.source.take (s.current_position + 1)).count '\n'
      rw [count_take_succ_ne s.source s.current_position c hc hne]
      exact hline

theorem step_ok_double (s : Scanner) (k : Kind) (c d : Char)
    (hmark : s.current_start = s.current_position)
    (hc : s.source[s.current_position]? = some c)
    (hd : s.source[s.current_position + 1]? = some d)
    (hcne : c ≠ '\n')
    (hdne : d ≠ '\n')
    (hkind : KindGood s.source (s.advance.advance.build_token k)) :
    StepOk s (.ok (some (s.advance.advance.build_token k), s.advance.advance)) := by
  have hd_lt : s.current_position + 1 < s.source.length := (List.getElem?_eq_some.mp hd).1
  refine ⟨_, _, rfl, rfl, by simp; omega, by simp; omega, ?_, ?_⟩
  · intro t ht
    rw [← Option.some_inj.mp ht]
    refine ⟨?_, ?_, hkind⟩
    · show s.current_start < s.current_position + 1 + 1
      omega
    · show s.current_position + 1 + 1 ≤ s.source.length
      omega
  · intro hline
    left
    constructor
    · show s.current_line = 1 + (s.source.take (s.current_position + 1 + 1)).count '\n'
      rw [count_take_succ_ne s.source (s.current_position + 1) d hd hdne,
        count_take_succ_ne s.source s.current_position c hc hcne]
      exact hline
    · intro t ht
      rw [← Option.some_inj.mp ht]
      show s.current_line = 1 + (s.source.take (s.current_position + 1 + 1)).count '\n'
      rw [count_take_succ_ne s.source (s.current_position + 1) d hd hdne,
        count_take_succ_ne s.source s.current_position c hc hcne]
      exact hline

theorem digit_ne_newline (c : Char) (h : isDigitChar c = true) : c ≠ '\n' := by
  intro hx
  rw [hx] at h
  exact absurd h (by decide)

theorem digit_or_dot_ne_newline (c : Char) (h : isDigitChar c = true ∨ c = '.') :
    c ≠ '\n' := by
  rcases h with h | h
  · exact digit_ne_newline c h
  · rw [h]
    decide

theorem alnum_ne_newline (c : Char) (h : isAlnumChar c = true) : c ≠ '\n' := by
  intro hx
  rw [hx] at h
  exact absurd h (by decide)

theorem notNewline_ne (c : Char) (h : notNewline c = true) : c ≠ '\n' := by
  intro hx
  rw [hx] at h
  exact absurd h (by decide)

/-- One scan step from a marked, unfinished state either fails with a real
error or a modelled panic (never fuel exhaustion, never the number-parse
panic), or produces at most one well-formed token while advancing the
cursor; exact line accounting can only be lost by an ExclamationEqual token
whose span is not the two characters of the operator. -/
theorem scan_token_spec (s : Scanner)
    (hmark : s.current_start = s.current_position)
    (hlt : s.current_position < s.source.length) :
    (∃ e, s.scan_token = .error e ∧ e ≠ ScanFail.outOfFuel ∧ e ≠ ScanFail.parsePanic) ∨
    StepOk s s.scan_token := by
  have hc : s.source[s.current_position]? = some s.source[s.current_position] :=
    List.getElem?_eq_getElem hlt
  have hcc : s.get_current_char = some s.source[s.current_position] :=
    (get_current_char_some_iff s _).mpr hc
  set c := s.source[s.current_position] with hcdef
  simp only [Scanner.scan_token, hcc]
  by_cases h1 : c = '('
  · rw [if_pos h1]
    right
    refine step_ok_single s _ c hmark hlt hc (by rw [h1]; decide) ?_
    show slice s.source s.current_start (s.current_position + 1) = ['(']
    rw [hmark, slice_one s.source s.current_position c hc, h1]
  rw [if_neg h1]
  by_cases h2 : c = ')'
  · rw [if_pos h2]
    right
    refine step_ok_single s _ c hmark hlt hc (by rw [h2]; decide) ?_
    show slice s.source s.current_start (s.current_position + 1) = [')']
    rw [hmark, slice_one s.source s.current_position c hc, h2]
  rw [if_neg h2]
  by_cases h3 : c = '{'
  · rw [if_pos h3]
    right
    refine step_ok_single s _ c hmark hlt hc (by rw [h3]; decide) ?_
    show slice s.source s.current_start (s.current_position + 1) = ['{']
    rw [hmark, slice_one s.source s.current_position c hc, h3]
  rw [if_neg h3]
  by_cases h4 : c = '}'
  · rw [if_pos h4]
    right
    refine step_ok_single s _ c hmark hlt hc (by rw [h4]; decide) ?_
    show slice s.source s.current_start (s.current_position + 1) = ['}']
    rw [hmark, slice_one s.source s.current_position c hc, h4]
  rw [if_neg h4]
  by_cases h5 : c = ','
  · rw [if_pos h5]
    right
    refine step_ok_single s _ c hmark hlt hc (by rw [h5]; decide) ?_
    show slice s.source s.current_start (s.current_position + 1) = [',']
    rw [hmark, slice_one s.source s.current_position c hc, h5]
  rw [if_neg h5]
  by_cases h6 : c = '.'
  · rw [if_pos h6]
    right
    refine step_ok_single s _ c hmark hlt hc (by rw [h6]; decide) ?_
    show slice s.source s.current_start (s.current_position + 1) = ['.']
    rw [hmark, slice_one s.source s.current_position c hc, h6]
  rw [if_neg h6]
  by_cases h7 : c = '-'
  · rw [if_pos h7]
    right
    refine step_ok_single s _ c hmark hlt hc (by rw [h7]; decide) ?_
    show slice s.source s.current_start (s.current_position + 1) = ['-']
    rw [hmark, slice_one s.source s.current_position c hc, h7]
  rw [if_neg h7]
  by_cases h8 : c = '+'
  · rw [if_pos h8]
    right
    refine step_ok_single s _ c hmark hlt hc (by rw [h8]; decide) ?_
    show slice s.source s.current_start (s.current_position + 1) = ['+']
    rw [hmark, slice_one s.source s.current_position c hc, h8]
  rw [if_neg h8]
  by_cases h9 : c = ';'
  · rw [if_pos h9]
    right
    refine step_ok_single s _ c hmark hlt hc (by rw [h9]; decide) ?_
    show slice s.source s.current_start (s.current_position + 1) = [';']
    rw [hmark, slice_one s.source s.current_position c hc, h9]
  rw [if_neg h9]
  by_cases h10 : c = '*'
  · rw [if_pos h10]
    right
    refine step_ok_single s _ c hmark hlt hc (by rw [h10]; decide) ?_
    show slice s.source s.current_start (s.current_position + 1) = ['*']
    rw [hmark, slice_one s.source s.current_position c hc, h10]
  rw [if_neg h10]
  by_cases h11 : c = '!'
  · rw [if_pos h11]
    rw [get_next_char_eq]
    simp only [advance_pos, advance_source]
    rcases Nat.lt_trichotomy (s.current_position + 1 + 1) s.source.length with hn | hn | hn
    · rw [if_pos hn]
      have hch : s.source[s.current_position + 1]? = some s.source[s.current_position + 1] :=
        List.getElem?_eq_getElem (by omega)
      have hd2 : s.source[s.current_position + 1 + 1]? =
          some s.source[s.current_position + 1 + 1] := List.getElem?_eq_getElem hn
      rw [hd2]
      dsimp only
      by_cases hdq : s.source[s.current_position + 1 + 1] = '='
      · rw [if_pos (by rw [hdq])]
        right
        refine ⟨_, _, rfl, rfl, ?_, ?_, ?_, ?_⟩
        · show s.current_position < s.current_position + 1 + 1
          omega
        · show s.current_position + 1 + 1 ≤ s.source.length
          omega
        · intro t ht
          rw [← Option.some_inj.mp ht]
          refine ⟨by show s.current_start < s.current_position + 1 + 1; omega,
            by show s.current_position + 1 + 1 ≤ s.source.length; omega, ?_⟩
          show (∃ ch, slice s.source s.current_start (s.current_position + 1 + 1) =
              ['!', ch]) ∧ s.source[s.current_position + 1 + 1]? = some '='
          constructor
          · refine ⟨s.source[s.current_position + 1], ?_⟩
            rw [hmark, slice_cons s.source s.current_position _ c hc (by omega),
              slice_one s.source (s.current_position + 1) _ hch, h11]
          · rw [hd2, hdq]
        · intro hline
          by_cases hchnl : s.source[s.current_position + 1] = '\n'
          · right
            refine ⟨_, rfl, rfl, ?_⟩
            show slice s.source s.current_start (s.current_position + 1 + 1) ≠ ['!', '=']
            rw [hmark, slice_cons s.source s.current_position _ c hc (by omega),
              slice_one s.source (s.current_position + 1) _ hch, h11, hchnl]
            decide
          · left
            constructor
            · show s.current_line =
                1 + (s.source.take (s.current_position + 1 + 1)).count '\n'
              rw [count_take_succ_ne s.source (s.current_position + 1) _ hch hchnl,
                count_take_succ_ne s.source s.current_position c hc (by rw [h11]; decide)]
              exact hline
            · intro t ht
              rw [← Option.some_inj.mp ht]
              show s.current_line =
                1 + (s.source.take (s.current_position + 1 + 1)).count '\n'
              rw [count_take_succ_ne s.source (s.current_position + 1) _ hch hchnl,
                count_take_succ_ne s.source s.current_position c hc (by rw [h11]; decide)]
              exact hline
      · rw [if_neg (by simp [hdq])]
        right
        refine step_ok_single s _ c hmark hlt hc (by rw [h11]; decide) ?_
        show slice s.source s.current_start (s.current_position + 1) = ['!']
        rw [hmark, slice_one s.source s.current_position c hc, h11]
    · rw [if_neg (by omega), if_pos hn]
      left
      exact ⟨.indexPanic, rfl, by simp, by simp⟩
    · rw [if_neg (by omega), if_neg (by omega)]
      dsimp only
      have hnone : (none : Option Char) ≠ some '=' := by simp
      rw [if_neg hnone]
      right
      refine step_ok_single s _ c hmark hlt hc (by rw [h11]; decide) ?_
      show slice s.source s.current_start (s.current_position + 1) = ['!']
      rw [hmark, slice_one s.source s.current_position c hc, h11]
  rw [if_neg h11]
  by_cases h12 : c = '>'
  · rw [if_pos h12]
    by_cases hpeek : s.advance.get_current_char = some '='
    · rw [if_pos hpeek]
      right
      have hd : s.source[s.current_position + 1]? = some '=' := by
        have := (get_current_char_some_iff s.advance '=').mp hpeek
        simpa using this
      refine step_ok_double s _ c '=' hmark hc hd (by rw [h12]; decide) (by decide) ?_
      show slice s.source s.current_start (s.current_position + 1 + 1) = ['>', '=']
      rw [hmark, slice_cons s.source s.current_position _ c hc (by omega),
        slice_one s.source (s.current_position + 1) '=' hd, h12]
    · rw [if_neg hpeek]
      right
      refine step_ok_single s _ c hmark hlt hc (by rw [h12]; decide) ?_
      show slice s.source s.current_start (s.current_position + 1) = ['>']
      rw [hmark, slice_one s.source s.current_position c hc, h12]
  rw [if_neg h12]
  by_cases h13 : c = '<'
  · rw [if_pos h13]
    by_cases hpeek : s.advance.get_current_char = some '='
    · rw [if_pos hpeek]
      right
      have hd : s.source[s.current_position + 1]? = some '=' := by
        have := (get_current_char_some_iff s.advance '=').mp hpeek
        simpa using this
      refine step_ok_double s _ c '=' hmark hc hd (by rw [h13]; decide) (by decide) ?_
      show slice s.source s.current_start (s.current_position + 1 + 1) = ['<', '=']
      rw [hmark, slice_cons s.source s.current_position _ c hc (by omega),
        slice_one s.source (s.current_position + 1) '=' hd, h13]
    · rw [if_neg hpeek]
      right
      refine step_ok_single s _ c hmark hlt hc (by rw [h13]; decide) ?_
      show slice s.source s.current_start (s.current_position + 1) = ['<']
      rw [hmark, slice_one s.source s.current_position c hc, h13]
  rw [if_neg h13]
  by_cases h14 : c = '='
  · rw [if_pos h14]
    by_cases hpeek : s.advance.get_current_char = some '='
    · rw [if_pos hpeek]
      right
      have hd : s.source[s.current_position + 1]? = some '=' := by
        have := (get_current_char_some_iff s.advance '=').mp hpeek
        simpa using this
      refine step_ok_double s _ c '=' hmark hc hd (by rw [h14]; decide) (by decide) ?_
      show slice s.source s.current_start (s.current_position + 1 + 1) = ['=', '=']
      rw [hmark, slice_cons s.source s.current_position _ c hc (by omega),
        slice_one s.source (s.current_position + 1) '=' hd, h14]
    · rw [if_neg hpeek]
      right
      refine step_ok_single s _ c hmark hlt hc (by rw [h14]; decide) ?_
      show slice s.source s.current_start (s.current_position + 1) = ['=']
      rw [hmark, slice_one s.source s.current_position c hc, h14]
  rw [if_neg h14]
  by_cases h15 : c = '/'
  · rw [if_pos h15]
    by_cases hpeek : s.advance.get_current_char = some '/'
    · rw [if_pos hpeek]
      rw [scan_comment_loop_spec s.advance.fuel s.advance (le_refl s.advance.fuel)]
      dsimp only
      simp only [advance_pos, advance_source, advance_start, advance_line_field]
      right
      have hbound := runFrom_length_le notNewline s.advance (by simp; omega)
      simp only [advance_pos, advance_source] at hbound
      have hslice2 : slice s.source (s.current_position + 1)
          (s.current_position + 1 + (runFrom notNewline s.advance).length) =
          runFrom notNewline s.advance := by
        have := slice_runFrom notNewline s.advance
        simpa using this
      have hchars2 : ∀ ch ∈ slice s.source s.current_position
          (s.current_position + 1 + (runFrom notNewline s.advance).length), ch ≠ '\n' := by
        intro ch hch
        rw [slice_cons s.source s.current_position _ c hc (by omega), hslice2] at hch
        rcases List.mem_cons.mp hch with hch | hch
        · rw [hch, h15]
          decide
        · exact notNewline_ne ch (List.mem_takeWhile_imp hch)
      refine ⟨none, _, rfl, rfl, ?_, ?_, ?_, ?_⟩
      · show s.current_position < s.current_position + 1 + (runFrom notNewline s.advance).length
        omega
      · show s.current_position + 1 + (runFrom notNewline s.advance).length ≤ s.source.length
        omega
      · intro t ht
        cases ht
      · intro hline
        left
        refine ⟨?_, by intro t ht; cases ht⟩
        show s.current_line = 1 + (s.source.take
          (s.current_position + 1 + (runFrom notNewline s.advance).length)).count '\n'
        rw [count_take_of_slice s.source s.current_position
          (s.current_position + 1 + (runFrom notNewline s.advance).length) (by omega) hchars2]
        exact hline
    · rw [if_neg hpeek]
      right
      refine step_ok_single s _ c hmark hlt hc (by rw [h15]; decide) ?_
      show slice s.source s.current_start (s.current_position + 1) = ['/']
      rw [hmark, slice_one s.source s.current_position c hc, h15]
  rw [if_neg h15]
  by_cases h16 : c = '"'
  · rw [if_pos h16]
    by_cases hq : '"' ∈ s.source.drop (s.current_position + 1)
    · obtain ⟨q, hqdef, heq, hquote, hslice, hle, hqlt⟩ :=
        scan_string_spec_found s.advance (by simpa using hq)
      simp only [advance_source, advance_pos, advance_start, advance_line_field]
        at hqdef heq hquote hslice hle hqlt
      rw [heq]
      right
      have hfull : slice s.source s.current_position (q + 1) =
          '"' :: (runFrom notQuote s.advance ++ ['"']) := by
        rw [← slice_append s.source s.current_position (s.current_position + 1) (q + 1)
          (by omega) (by omega)]
        rw [slice_one s.source s.current_position c hc]
        rw [← slice_append s.source (s.current_position + 1) q (q + 1) (by omega) (by omega)]
        rw [hslice, slice_one s.source q '"' hquote, h16]
        rfl
      have hcount : (s.source.take (q + 1)).count '\n' =
          (s.source.take s.current_position).count '\n' +
          (runFrom notQuote s.advance).count '\n' := by
        rw [count_take_of_slice_count s.source s.current_position (q + 1) (by omega), hfull]
        simp [List.count_cons, List.count_append]
      refine ⟨_, _, rfl, rfl, ?_, ?_, ?_, ?_⟩
      · show s.current_position < q + 1
        omega
      · show q + 1 ≤ s.source.length
        omega
      · intro t ht
        rw [← Option.some_inj.mp ht]
        refine ⟨by show s.current_start < q + 1; omega,
          by show q + 1 ≤ s.source.length; omega, ?_⟩
        show slice s.source s.current_start (q + 1) =
          '"' :: (slice s.source (s.current_start + 1) q) ++ ['"']
        rw [hmark, hslice, hfull]
        simp
      · intro hline
        left
        constructor
        · show s.current_line + (runFrom notQuote s.advance).count '\n' =
            1 + (s.source.take (q + 1)).count '\n'
          rw [hcount]
          have hl2 : s.current_line = 1 + (s.source.take s.current_position).count '\n' :=
            hline
          omega
        · intro t ht
          rw [← Option.some_inj.mp ht]
          show s.current_line + (runFrom notQuote s.advance).count '\n' =
            1 + (s.source.take (q + 1)).count '\n'
          rw [hcount]
          have hl2 : s.current_line = 1 + (s.source.take s.current_position).count '\n' :=
            hline
          omega
    · have heq := scan_string_spec_not_found s.advance (by simpa using hq)
      rw [heq]
      left
      exact ⟨_, rfl, by simp, by simp⟩
  rw [if_neg h16]
  by_cases h17 : isDigitChar c = true
  · rw [if_pos h17]
    rcases scan_number_spec s.advance c (by simp [hmark]) (by simpa [hmark] using hc) h17
        (by simp; omega) with hpanic | ⟨e, v, heq, hparse, hle, hlen, hchars⟩
    · rw [hpanic]
      left
      exact ⟨_, rfl, by simp, by simp⟩
    · simp only [advance_source, advance_start, advance_pos, advance_line_field]
        at heq hparse hle hlen hchars
      rw [heq]
      right
      have hchars2 : ∀ ch ∈ slice s.source s.current_position e, ch ≠ '\n' := by
        rw [← hmark]
        intro ch hch
        exact digit_or_dot_ne_newline ch (hchars ch hch)
      refine ⟨_, _, rfl, rfl, ?_, ?_, ?_, ?_⟩
      · show s.current_position < e
        omega
      · show e ≤ s.source.length
        exact hlen
      · intro t ht
        rw [← Option.some_inj.mp ht]
        refine ⟨by show s.current_start < e; omega,
          by show e ≤ s.source.length; exact hlen, ?_⟩
        show parse_f64 (slice s.source s.current_start e) = some v
        exact hparse
      · intro hline
        left
        constructor
        · show s.current_line = 1 + (s.source.take e).count '\n'
          rw [count_take_of_slice s.source s.current_position e (by omega) hchars2]
          exact hline
        · intro t ht
          rw [← Option.some_inj.mp ht]
          show s.current_line = 1 + (s.source.take e).count '\n'
          rw [count_take_of_slice s.source s.current_position e (by omega) hchars2]
          exact hline
  rw [if_neg h17]
  by_cases h18 : isAlphaChar c = true
  · rw [if_pos h18]
    obtain ⟨e, hqdef, heq, hle, hlen, hspan, hchars⟩ :=
      scan_identifier_spec s.advance c (by simp [hmark]) (by simpa [hmark] using hc) h18
        (by simp; omega)
    simp only [advance_source, advance_start, advance_pos, advance_line_field]
      at hqdef heq hle hlen hspan hchars
    rw [heq]
    right
    have hchars2 : ∀ ch ∈ slice s.source s.current_position e, ch ≠ '\n' := by
      rw [← hmark]
      intro ch hch
      exact alnum_ne_newline ch (hchars ch hch)
    have hkind : KindGood s.source
        ⟨identKind (String.mk (slice s.source s.current_start e)),
          ⟨s.current_start, e, s.current_line⟩⟩ := by
      rcases hk : keyword_from_str (String.mk (slice s.source s.current_start e)) with _ | k
      · have hik : identKind (String.mk (slice s.source s.current_start e)) =
            .Identifier (String.mk (slice s.source s.current_start e)) := by
          simp [identKind, hk]
        rw [hik]
        exact ⟨rfl, hk⟩
      · have hik : identKind (String.mk (slice s.source s.current_start e)) =
            .Keyword k := by
          simp [identKind, hk]
        rw [hik]
        exact hk
    refine ⟨_, _, rfl, rfl, ?_, ?_, ?_, ?_⟩
    · show s.current_position < e
      omega
    · show e ≤ s.source.length
      exact hlen
    · intro t ht
      rw [← Option.some_inj.mp ht]
      exact ⟨by show s.current_start < e; omega,
        by show e ≤ s.source.length; exact hlen, hkind⟩
    · intro hline
      left
      constructor
      · show s.current_line = 1 + (s.source.take e).count '\n'
        rw [count_take_of_slice s.source s.current_position e (by omega) hchars2]
        exact hline
      · intro t ht
        rw [← Option.some_inj.mp ht]
        show s.current_line = 1 + (s.source.take e).count '\n'
        rw [count_take_of_slice s.source s.current_position e (by omega) hchars2]
        exact hline
  rw [if_neg h18]
  by_cases h19 : c = ' ' ∨ c = '\r' ∨ c = '\t'
  · rw [if_pos h19]
    right
    have hne : c ≠ '\n' := by
      rcases h19 with h | h | h
      · rw [h]; decide
      · rw [h]; decide
      · rw [h]; decide
    refine ⟨none, s.advance, rfl, rfl, by simp, by simp; omega, ?_, ?_⟩
    · intro t ht
      cases ht
    · intro hline
      left
      refine ⟨?_, by intro t ht; cases ht⟩
      show s.current_line = 1 + (s.source.take (s.current_position + 1)).count '\n'
      rw [count_take_succ_ne s.source s.current_position c hc hne]
      exact hline
  rw [if_neg h19]
  by_cases h20 : c = '\n'
  · rw [if_pos h20]
    right
    refine ⟨none, s.advance.advance_line, rfl, rfl, by simp, by simp; omega, ?_, ?_⟩
    · intro t ht
      cases ht
    · intro hline
      left
      refine ⟨?_, by intro t ht; cases ht⟩
      show s.current_line + 1 = 1 + (s.source.take (s.current_position + 1)).count '\n'
      rw [count_take_succ_nl s.source s.current_position (by rw [← h20]; exact hc)]
      have hl2 : s.current_line = 1 + (s.source.take s.current_position).count '\n' :=
        hline
      omega
  rw [if_neg h20]
  left
  exact ⟨_, rfl, by simp, by simp⟩

/-- Soundness of the scanning loop with sufficient fuel: fuel never runs
out, the number-parse unwrap never fires, every emitted token is span and
kind correct, and with exact line accounting at entry every line field is
exact as long as every ExclamationEqual token spans the two operator
characters. -/
theorem scan_tokens_loop_spec (fuel : Nat) : ∀ (s : Scanner),
    s.source.length - s.current_position ≤ fuel →
    (∀ e, scan_tokens_loop fuel s = .error e →
      e ≠ ScanFail.outOfFuel ∧ e ≠ ScanFail.parsePanic) ∧
    (∀ ts, scan_tokens_loop fuel s = .ok ts →
      (∀ t ∈ ts, SpanGood s.source t) ∧
      (lineInv s →
        (∀ u ∈ ts, u.kind = Kind.ExclamationEqual →
          slice s.source u.position.start u.position.current = ['!', '=']) →
        ∀ t ∈ ts, t.position.line = 1 + (s.source.take t.position.current).count '\n')) := by
  induction fuel with
  | zero =>
    intro s hf
    have hfin : s.finished = true := (finished_true_iff s).mpr (by omega)
    rw [scan_tokens_loop, if_pos hfin]
    constructor
    · intro e he
      cases he
    · intro ts hts
      have hts2 : ts = [] := (Except.ok.inj hts).symm
      subst hts2
      constructor
      · intro t ht
        cases ht
      · intro _ _ t ht
        cases ht
  | succ f ih =>
    intro s hf
    rcases hfin : s.finished with _ | _
    · have hlt : s.current_position < s.source.length := (finished_false_iff s).mp hfin
      rw [scan_tokens_loop, if_neg (by rw [hfin]; exact Bool.false_ne_true)]
      rcases scan_token_spec s.mark_start (by simp) (by simpa using hlt) with
        ⟨e, he, hnf, hnp⟩ | ⟨opt, s2, heq, hsrc, hprog, hbound, hspan, hlinepart⟩
      · rw [he]
        constructor
        · intro e2 he2
          have : e = e2 := Except.error.inj he2
          subst this
          exact ⟨hnf, hnp⟩
        · intro ts hts
          cases hts
      · rw [heq]
        simp only [markStart_source, markStart_pos, markStart_line, markStart_start]
          at hsrc hprog hbound hspan hlinepart
        have hih := ih s2 (by rw [hsrc]; omega)
        rcases opt with _ | t0
        · dsimp only
          constructor
          · exact hih.1
          · intro ts hts
            have h2 := hih.2 ts hts
            constructor
            · intro t ht
              have hsg := h2.1 t ht
              rw [hsrc] at hsg
              exact hsg
            · intro hline hprov
              rcases hlinepart hline with ⟨hline2, _⟩ | ⟨t, ht, _, _⟩
              · have := h2.2 hline2 (by rw [hsrc]; exact hprov)
                intro t ht
                have hfact := this t ht
                rw [hsrc] at hfact
                exact hfact
              · cases ht
        · dsimp only
          rcases hrec : scan_tokens_loop f s2 with e2 | ts2
          · constructor
            · intro e3 he3
              have : e2 = e3 := Except.error.inj he3
              subst this
              exact hih.1 e2 hrec
            · intro ts hts
              cases hts
          · constructor
            · intro e3 he3
              cases he3
            · intro ts hts
              have hts2 : ts = t0 :: ts2 := (Except.ok.inj hts).symm
              subst hts2
              have h2 := hih.2 ts2 hrec
              constructor
              · intro t ht
                rcases List.mem_cons.mp ht with ht | ht
                · subst ht
                  exact (hspan t rfl)
                · have hsg := h2.1 t ht
                  rw [hsrc] at hsg
                  exact hsg
              · intro hline hprov
                rcases hlinepart hline with ⟨hline2, hlinefact⟩ | ⟨t, ht, hkind, hslice⟩
                · intro t ht
                  rcases List.mem_cons.mp ht with ht | ht
                  · subst ht
                    exact hlinefact t rfl
                  · have hfact := h2.2 hline2 (by
                      rw [hsrc]
                      intro u hu hk
                      exact hprov u (List.mem_cons_of_mem t0 hu) hk) t ht
                    rw [hsrc] at hfact
                    exact hfact
                · have ht0 : t0 = t := Option.some_inj.mp ht
                  subst ht0
                  exact absurd (hprov t0 (List.mem_cons_self t0 ts2) hkind) hslice
    · rw [scan_tokens_loop, if_pos hfin]
      constructor
      · intro e he
        cases he
      · intro ts hts
        have hts2 : ts = [] := (Except.ok.inj hts).symm
        subst hts2
        constructor
        · intro t ht
          cases ht
        · intro _ _ t ht
          cases ht

/-- Soundness of a full scan from a fresh scanner over a source text. -/
theorem lox_scan_spec (source : String) :
    (∀ e, lox_scan source = .error e → e ≠ ScanFail.outOfFuel ∧ e ≠ ScanFail.parsePanic) ∧
    (∀ ts, lox_scan source = .ok ts →
      (∀ t ∈ ts, SpanGood source.data t) ∧
      ((∀ u ∈ ts, u.kind = Kind.ExclamationEqual →
          slice source.data u.position.start u.position.current = ['!', '=']) →
        ∀ t ∈ ts, t.position.line = 1 + (source.data.take t.position.current).count '\n')) := by
  have h := scan_tokens_loop_spec (Scanner.new source).fuel (Scanner.new source)
    (le_refl (Scanner.new source).fuel)
  constructor
  · exact h.1
  · intro ts hts
    have h2 := h.2 ts hts
    refine ⟨h2.1, ?_⟩
    intro hprov
    refine h2.2 ?_ hprov
    show (1 : Nat) = 1 + ((source.data.take 0).count '\n')
    simp

/-- C1: the two-character operator rule is not uniform. The exclamation arm
peeks one slot past the cursor, so scanning a source consisting of exactly
an exclamation mark and an equals sign panics on an out-of-range unwrap
inside get_character_at_position instead of producing one ExclamationEqual
token, and with a third character following, the exclamation mark and the
equals sign are emitted as two separate tokens. The three other operators
follow the documented rule. -/
theorem bangEqual_lookahead_bug :
    lox_scan ("!=") = .error .indexPanic ∧
    lox_scan ("!=;") = .ok [⟨.Exclamation, ⟨0, 1, 1⟩⟩, ⟨.Equal, ⟨1, 2, 1⟩⟩,
      ⟨.Semicolon, ⟨2, 3, 1⟩⟩] ∧
    lox_scan ("!") = .ok [⟨.Exclamation, ⟨0, 1, 1⟩⟩] ∧
    lox_scan ("==") = .ok [⟨.EqualEqual, ⟨0, 2, 1⟩⟩] ∧
    lox_scan ("=") = .ok [⟨.Equal, ⟨0, 1, 1⟩⟩] ∧
    lox_scan ("<=") = .ok [⟨.LessEqual, ⟨0, 2, 1⟩⟩] ∧
    lox_scan ("<") = .ok [⟨.Less, ⟨0, 1, 1⟩⟩] ∧
    lox_scan (">=") = .ok [⟨.GreaterEqual, ⟨0, 2, 1⟩⟩] ∧
    lox_scan (">") = .ok [⟨.Greater, ⟨0, 1, 1⟩⟩] := by
  decide

/-- C2 counterexample: a string literal spanning a newline is recorded with
line 2, the line of its closing quote, while its first character sits on
line 1, refuting the claim that the line field always names the line of the
token's first character. -/
theorem string_line_counterexample :
    lox_scan ("\"a\nb\"") = .ok [⟨.String ("a\nb"), ⟨0, 5, 2⟩⟩] ∧
    1 + ((("\"a\nb\"").data.take 0).count '\n') = 1 ∧ (2 : Nat) ≠ 1 := by
  decide

/-- C2 amended: in a successful scan every token's line field equals one
plus the number of newlines before the token's end offset, the line of the
position just after the token's last character, provided every
ExclamationEqual token in the result spans exactly the two operator
characters; the faulty exclamation lookahead can otherwise consume a newline
that is never counted. For a token containing no newline this is the line of
its first character; a string literal spanning newlines records the line of
its closing quote. -/
theorem token_line_is_end_line (source : String) (ts : List Token)
    (hok : lox_scan source = .ok ts)
    (hprov : ∀ u ∈ ts, u.kind = Kind.ExclamationEqual →
      slice source.data u.position.start u.position.current = ['!', '=']) :
    ∀ t ∈ ts, t.position.line = 1 + (source.data.take t.position.current).count '\n' :=
  ((lox_scan_spec source).2 ts hok).2 hprov

theorem token_line_is_end_line_witness :
    (⟨Kind.String ("a\nb"), ⟨0, 5, 2⟩⟩ : Token).position.line =
      1 + ((("\"a\nb\"").data.take
        (⟨Kind.String ("a\nb"), ⟨0, 5, 2⟩⟩ : Token).position.current).count '\n') :=
  token_line_is_end_line ("\"a\nb\"") [⟨.String ("a\nb"), ⟨0, 5, 2⟩⟩] (by decide)
    (by decide) ⟨.String ("a\nb"), ⟨0, 5, 2⟩⟩ (by decide)

/-- C3: every span the number sub-scanner accumulates parses as a decimal
number, so the unwrap of the parse result never fires: no scan of any source
can produce the modelled parse panic. -/
theorem number_parse_unwrap_never_panics (source : String) :
    lox_scan source ≠ .error .parsePanic := by
  intro h
  exact ((lox_scan_spec source).1 .parsePanic h).2 rfl

/-- C4 counterexample: scanning an exclamation mark, a letter, then an
equals sign merges the first two characters into one ExclamationEqual token
because the guard checks the slot after the cursor, so re-slicing that
token's span yields the exclamation mark and the letter rather than the two
operator characters. -/
theorem round_trip_counterexample :
    lox_scan ("!x=") = .ok [⟨.ExclamationEqual, ⟨0, 2, 1⟩⟩, ⟨.Equal, ⟨2, 3, 1⟩⟩] ∧
    slice ("!x=").data 0 2 = ['!', 'x'] ∧ (['!', 'x'] : List Char) ≠ ['!', '='] := by
  decide

/-- C4 amended: for every token of a successful scan, slicing the source at
the recorded span reproduces the classified characters for every fixed
punctuation and operator kind except ExclamationEqual, whose slice is an
exclamation mark followed by one arbitrary character with the equals sign
found at the end offset itself; a String payload is the slice minus the two
quote characters, a Number payload is the successful decimal parse of the
slice, and an Identifier payload is the slice itself. -/
theorem token_span_round_trip (source : String) (ts : List Token)
    (hok : lox_scan source = .ok ts) :
    ∀ t ∈ ts, KindGood source.data t :=
  fun t ht => (((lox_scan_spec source).2 ts hok).1 t ht).2.2

theorem token_span_round_trip_witness :
    KindGood ("(").data ⟨Kind.OpenParenthesis, ⟨0, 1, 1⟩⟩ :=
  token_span_round_trip ("(") [⟨.OpenParenthesis, ⟨0, 1, 1⟩⟩] (by decide)
    ⟨.OpenParenthesis, ⟨0, 1, 1⟩⟩ (by decide)

/-- C5: a number with a fractional part scans as a single token and a dot
followed by a non-digit is left unconsumed, but when the dot is the very
last character of the source the fraction guard evaluates get_next_char at
an offset equal to the length and panics on the unwrap, instead of emitting
the number followed by a separate Dot token. -/
theorem trailing_dot_panics :
    lox_scan ("123.45") = .ok [⟨.Number (mkRat 12345 100), ⟨0, 6, 1⟩⟩] ∧
    lox_scan ("123.") = .error .indexPanic ∧
    lox_scan ("123.x") = .ok [⟨.Number (mkRat 123 1), ⟨0, 3, 1⟩⟩, ⟨.Dot, ⟨3, 4, 1⟩⟩,
      ⟨.Identifier ("x"), ⟨4, 5, 1⟩⟩] := by
  decide

/-- C6: keyword versus identifier classification is by exact span equality:
every Keyword token's span looks up to exactly that keyword, every
Identifier token's name fails the keyword lookup, and concretely the
spelling of a keyword scans to a Keyword token while the same spelling with
a suffix scans to an Identifier token. -/
theorem keyword_exact_match (source : String) (ts : List Token)
    (hok : lox_scan source = .ok ts) :
    (∀ t ∈ ts, ∀ k, t.kind = Kind.Keyword k →
      keyword_from_str (String.mk (slice source.data t.position.start t.position.current)) =
        some k) ∧
    (∀ t ∈ ts, ∀ nm, t.kind = Kind.Identifier nm →
      nm.data = slice source.data t.position.start t.position.current ∧
      keyword_from_str nm = none) := by
  constructor
  · intro t ht k hk
    have hg := (((lox_scan_spec source).2 ts hok).1 t ht).2.2
    unfold KindGood at hg
    rw [hk] at hg
    exact hg
  · intro t ht nm hnm
    have hg := (((lox_scan_spec source).2 ts hok).1 t ht).2.2
    unfold KindGood at hg
    rw [hnm] at hg
    exact hg

theorem keyword_exact_match_witness :
    keyword_from_str (String.mk (slice ("and").data 0 3)) = some Keyword.And ∧
    keyword_from_str ("andy") = none := by
  constructor
  · exact (keyword_exact_match ("and") [⟨.Keyword .And, ⟨0, 3, 1⟩⟩] (by decide)).1
      ⟨.Keyword .And, ⟨0, 3, 1⟩⟩ (by decide) Keyword.And rfl
  · exact ((keyword_exact_match ("andy") [⟨.Identifier ("andy"), ⟨0, 4, 1⟩⟩] (by decide)).2
      ⟨.Identifier ("andy"), ⟨0, 4, 1⟩⟩ (by decide) ("andy") rfl).2

/-- C7: the string sub-scanner fails with the EOF message, at the line the
scanner has reached after walking the remaining input, exactly when no
closing quote remains; on success the payload is the verbatim character
sequence strictly between the two quotes, with no escape processing.
Concretely, an unterminated literal fails with that error at line 1, and a
literal spanning a newline succeeds with its contents taken verbatim. -/
theorem string_eof_and_verbatim :
    (∀ s : Scanner, '"' ∉ s.source.drop s.current_position →
      s.scan_string = .error (.err ⟨"EOF while scanning string literal",
        s.current_line + (s.source.drop s.current_position).count '\n'⟩)) ∧
    (∀ s : Scanner, '"' ∈ s.source.drop s.current_position →
      ∃ q, s.source[q]? = some '"' ∧
        s.scan_string = .ok (some
          ⟨.String (String.mk (slice s.source (s.current_start + 1) q)),
            ⟨s.current_start, q + 1,
              s.current_line + (slice s.source s.current_position q).count '\n'⟩⟩,
          ⟨s.source, q + 1, s.current_start,
            s.current_line + (slice s.source s.current_position q).count '\n'⟩)) ∧
    lox_scan ("\"abc") = .error (.err ⟨"EOF while scanning string literal", 1⟩) ∧
    lox_scan ("\"a\nb\"") = .ok [⟨.String ("a\nb"), ⟨0, 5, 2⟩⟩] := by
  refine ⟨?_, ?_, by decide, by decide⟩
  · intro s h
    exact scan_string_spec_not_found s h
  · intro s h
    obtain ⟨q, hqdef, heq, hquote, hslice, hle, hqlt⟩ := scan_string_spec_found s h
    refine ⟨q, hquote, ?_⟩
    rw [hslice]
    exact heq

theorem string_eof_and_verbatim_witness :
    (⟨("abc").data, 0, 0, 1⟩ : Scanner).scan_string =
      .error (.err ⟨"EOF while scanning string literal",
        1 + ((("abc").data.drop 0).count '\n')⟩) :=
  string_eof_and_verbatim.1 ⟨("abc").data, 0, 0, 1⟩ (by decide)

/-- C8: scanning any finite source terminates: the fuel embedding of every
loop is supplied with the number of unread characters, and because the
cursor strictly advances on every iteration the fuel never runs out, so no
scan can return the out-of-fuel marker. -/
theorem scan_always_terminates (source : String) :
    lox_scan source ≠ .error .outOfFuel := by
  intro h
  exact ((lox_scan_spec source).1 .outOfFuel h).1 rfl

/-- C9: a successful scan never emits a token of the EOF kind: exhausting
the input simply ends the loop, and the EOF variant of the kind model stays
unused. -/
theorem no_eof_token_emitted (source : String) (ts : List Token)
    (hok : lox_scan source = .ok ts) : ∀ t ∈ ts, t.kind ≠ Kind.EOF := by
  intro t ht hkind
  have hg := (((lox_scan_spec source).2 ts hok).1 t ht).2.2
  unfold KindGood at hg
  rw [hkind] at hg
  exact hg

theorem no_eof_token_emitted_witness :
    (⟨Kind.OpenParenthesis, ⟨0, 1, 1⟩⟩ : Token).kind ≠ Kind.EOF :=
  no_eof_token_emitted ("(") [⟨.OpenParenthesis, ⟨0, 1, 1⟩⟩] (by decide)
    ⟨.OpenParenthesis, ⟨0, 1, 1⟩⟩ (by decide)

/-- C10: every token of a successful scan has a non-empty, in-bounds span:
the start offset is strictly below the end offset, and the end offset is at
most the number of characters of the source. -/
theorem token_span_well_formed (source : String) (ts : List Token)
    (hok : lox_scan source = .ok ts) :
    ∀ t ∈ ts, t.position.start < t.position.current ∧
      t.position.current ≤ source.data.length := by
  intro t ht
  have h := ((lox_scan_spec source).2 ts hok).1 t ht
  exact ⟨h.1, h.2.1⟩

theorem token_span_well_formed_witness :
    (⟨Kind.OpenParenthesis, ⟨0, 1, 1⟩⟩ : Token).position.start <
      (⟨Kind.OpenParenthesis, ⟨0, 1, 1⟩⟩ : Token).position.current ∧
    (⟨Kind.OpenParenthesis, ⟨0, 1, 1⟩⟩ : Token).position.current ≤ ("(").data.length :=
  token_span_well_formed ("(") [⟨.OpenParenthesis, ⟨0, 1, 1⟩⟩] (by decide)
    ⟨.OpenParenthesis, ⟨0, 1, 1⟩⟩ (by decide)

end Lox
